import Mathlib

/-
  A verification development for the test-plan generator in
  packages/test-runner/src/testGenerator.ts.

  The TypeScript source is shallowly embedded as pure Lean functions:

  * The declaration tree (SuiteDeclaration / TestDeclaration, from
    declarations.ts, which is outside the fragment) is a nested inductive
    tree; a test declaration carries the outcome of fixturesForCallback on
    its callback as data (fixturesForCallback may throw, hence Except).
  * The external collaborators from fixtures.ts (the registrations map and
    the matrix of generator-fixture domains, re-established per file by
    rerunRegistrations) are an explicit environment Env holding the maps as
    they stand during one generation pass.  Per the error-handling design,
    a fixture named as a dependency must be registered, so the registration
    lookup is modelled total.
  * The node crypto sha1 accumulator is modelled abstractly: updates
    concatenate the fed strings and the hex digest is an uninterpreted
    function sha1hex of the accumulated byte string.
  * The JS RegExp engine is modelled as an abstract total matcher
    regexTest (pattern, flags, input); the parsing of the user-supplied
    grep string by the literal regex (slash pattern slash flags,
    with a catch-all fallback) is embedded concretely, including the
    JS dot-does-not-match-line-terminators behaviour.
  * In-place mutation (pushing runs onto test.runs, pruning the tree in
    filterOnly) becomes functional update.
-/

/-- A fixture registration from the external registry: a scope tag
("worker" or "test") and a source location string. -/
structure Registration where
  scope : String
  location : String

/-- A Configuration is an ordered list of name / value pairs, one per
generator fixture (values are embedded as their rendered strings, which is
all serializeConfiguration reads of them). -/
abbrev Configuration := List (String × String)

/-- One concrete run of a test: its configuration, the rendered
configuration string and the worker key.  The back reference to the test
held by the TypeScript object is dropped. -/
structure TestRun where
  configuration : Configuration
  _configurationString : String
  _workerHash : String
deriving DecidableEq, Repr

deriving instance DecidableEq for Except

/-- A test declaration: title, exclusivity flag, the outcome of
fixturesForCallback on its callback (ok names, or the thrown error), and
its append-only list of runs. -/
structure TestDeclaration where
  title : String
  _only : Bool
  fixtureResult : Except String (List String)
  runs : List TestRun
deriving DecidableEq, Repr

/-- A suite declaration: title, exclusivity flag, child suites and direct
child tests. -/
inductive SuiteDeclaration where
  | mk (title : String) (_only : Bool) (suites : List SuiteDeclaration)
       (tests : List TestDeclaration)

def SuiteDeclaration.title : SuiteDeclaration → String
  | .mk t _ _ _ => t

def SuiteDeclaration._only : SuiteDeclaration → Bool
  | .mk _ o _ _ => o

def SuiteDeclaration.suites : SuiteDeclaration → List SuiteDeclaration
  | .mk _ _ s _ => s

def SuiteDeclaration.tests : SuiteDeclaration → List TestDeclaration
  | .mk _ _ _ t => t

/-- The collaborator state during one generation pass: the fixture
registry, the generator-fixture domain map (matrix), and the abstract
sha1 hex digest function. -/
structure Env where
  registrations : String → Registration
  matrix : String → Option (List String)
  sha1hex : String → String

/-- The slice of RunnerConfig that generateTests reads. -/
structure RunnerConfig where
  grep : Option String
  repeatEach : Nat

/-- The character for one decimal digit. -/
def digitChar (d : Nat) : Char := Char.ofNat (48 + d)

/-- Fuel-driven big-endian decimal digit list; fuel at least n is enough. -/
def natReprAux : Nat → Nat → List Char
  | 0, _ => []
  | _ + 1, 0 => []
  | fuel + 1, n + 1 =>
      natReprAux fuel ((n + 1) / 10) ++ [digitChar ((n + 1) % 10)]

/-- Decimal rendering of a natural number, the embedding of the JS
template interpolation of the repeat index. -/
def natRepr (n : Nat) : String :=
  if n = 0 then "0" else String.mk (natReprAux n n)

/-- serializeConfiguration (testGenerator.ts, lines 147 to 152): render
each pair as name=value and join with a comma and space. -/
def serializeConfiguration (configuration : Configuration) : String :=
  String.intercalate ", " (configuration.map fun p => p.1 ++ "=" ++ p.2)

/-- computeWorkerRegistrationHash (testGenerator.ts, lines 135 to 145):
feed the location of every worker-scoped registration among the fixture
names, in list order, into the sha1 accumulator (concatenation), then take
the hex digest. -/
def computeWorkerRegistrationHash (env : Env) (fixtures : List String) : String :=
  env.sha1hex (fixtures.foldl (fun acc fixture =>
    let registration := env.registrations fixture
    if registration.scope != "worker" then acc
    else acc ++ registration.location) "")

/-- The sequence of source locations of the worker-scoped registrations
of a fixture name list, in list order. -/
def workerLocations (regs : String → Registration) (fixtures : List String) : List String :=
  (fixtures.filter fun f => (regs f).scope == "worker").map fun f => (regs f).location

/-- One step of the generator-fixture expansion loop (testGenerator.ts,
lines 57 to 67): if the accumulator is empty restart from the single empty
configuration, then extend every partial configuration by every value of
the domain. -/
def expandFixture (acc : List Configuration) (name : String) (values : List String) :
    List Configuration :=
  let state := if acc.length != 0 then acc else [[]]
  state.flatMap fun gen => values.map fun value => gen ++ [(name, value)]

/-- The body of the expansion loop: a fixture name absent from the matrix
(a falsy lookup) is skipped; a present one (an empty domain included, since
an empty array is truthy) expands the accumulator. -/
def matrixStep (env : Env) (acc : List Configuration) (name : String) :
    List Configuration :=
  match env.matrix name with
  | none => acc
  | some values => expandFixture acc name values

/-- The generator-fixture expansion loop of generateTests: fold over the
fixture names. -/
def generatorConfigurations (env : Env) (fixtures : List String) : List Configuration :=
  fixtures.foldl (matrixStep env) []

/-- Materialize the run for one configuration and one repeat index
(testGenerator.ts, lines 73 to 82). -/
def mkTestRun (env : Env) (fixtures : List String) (configuration : Configuration)
    (i : Nat) : TestRun :=
  let configurationString :=
    serializeConfiguration configuration ++ "#repeat-" ++ natRepr i ++ "#"
  { configuration := configuration
    _configurationString := configurationString
    _workerHash := computeWorkerRegistrationHash env fixtures ++ "@" ++ configurationString }

/-- All runs generated for one test from its resolved fixture list: the
expansion (with the empty-set fallback of lines 69 to 71) crossed with the
repeat indices, outer loop configurations, inner loop repeats. -/
def runsForTest (env : Env) (repeatEach : Nat) (fixtures : List String) : List TestRun :=
  let gcs0 := generatorConfigurations env fixtures
  let gcs := if gcs0.length = 0 then [[]] else gcs0
  gcs.flatMap fun c => (List.range repeatEach).map (mkTestRun env fixtures c)

/-- The try/catch around fixturesForCallback (lines 43 to 49): a thrown
resolution error is swallowed and the test proceeds with zero fixtures. -/
def resolvedFixtures (t : TestDeclaration) : List String :=
  match t.fixtureResult with
  | .ok fixtures => fixtures
  | .error _ => []

/-- The characters the JS dot does not match (line terminators). -/
def isLineTerm (c : Char) : Bool :=
  c = '\n' || c = '\r' || c = Char.ofNat 0x2028 || c = Char.ofNat 0x2029

/-- The first alternative of the grep-parsing regex: a string of the shape
slash pattern slash flags, where flags is empty, "g" or "i", and the
pattern part may not contain a line terminator.  Returns the pattern and
flag captures; the greedy dot-star takes the rightmost closing slash. -/
def grepDelimited (s : String) : Option (String × String) :=
  match s.data with
  | [] => none
  | c :: rest =>
    if c != '/' then none
    else match rest.reverse with
      | [] => none
      | d :: pRev =>
        if d = '/' then some (String.mk pRev.reverse, "")
        else match pRev with
          | [] => none
          | e :: pRev2 =>
            if e = '/' && (d = 'g' || d = 'i') then
              some (String.mk pRev2.reverse, String.mk [d])
            else none

/-- The grep string parse of generateTests (lines 26 to 29): match the
input against the literal regex; on a first-alternative match use the
pattern capture unless it is empty (JS falsiness), in which case the whole
match is the pattern while the flag capture is kept; otherwise the
catch-all second alternative makes the whole input the pattern with no
flags.  A line terminator anywhere in the input defeats the anchored first
alternative and truncates the catch-all match. -/
def parseGrep (s : String) : String × String :=
  if s.data.any isLineTerm then
    (String.mk (s.data.takeWhile fun c => !isLineTerm c), "")
  else
    match grepDelimited s with
    | some (p, f) => if p = "" then (s, f) else (p, f)
    | none => (s, "")

/-- Build the grep predicate from the config (lines 25 to 29): an absent
or empty (falsy) grep string means no filtering; otherwise parse the
string and close the abstract RegExp matcher over pattern and flags. -/
def mkGrep (regexTest : String → String → String → Bool) (grep : Option String) :
    Option (String → Bool) :=
  match grep with
  | none => none
  | some s =>
    if s = "" then none
    else
      let pf := parseGrep s
      some (regexTest pf.1 pf.2)

/-- A test passes the filter iff no grep is active or the matcher accepts
the full title (line 40). -/
def grepIncluded (grep : Option (String → Bool)) (full : String) : Bool :=
  match grep with
  | none => true
  | some m => m full

/-- Modelled from the spec: TestDeclaration.fullTitle (declarations.ts is
not in the fragment): the chain of suite titles joined with the test title. -/
def fullTitle (pfx : List String) (t : TestDeclaration) : String :=
  String.intercalate " " (pfx ++ [t.title])

/-- The per-test body of the generation loop (lines 39 to 83): skip the
test when an active grep rejects its full title; otherwise resolve its
fixtures (swallowing errors), and append one run per configuration and
repeat index to its run list. -/
def processTest (env : Env) (repeatEach : Nat) (grep : Option (String → Bool))
    (pfx : List String) (t : TestDeclaration) : TestDeclaration :=
  if grepIncluded grep (fullTitle pfx t) then
    { t with runs := t.runs ++ runsForTest env repeatEach (resolvedFixtures t) }
  else t

/-- The generation loop over a list of sibling tests. -/
def processTests (env : Env) (repeatEach : Nat) (grep : Option (String → Bool))
    (pfx : List String) (ts : List TestDeclaration) : List TestDeclaration :=
  ts.map (processTest env repeatEach grep pfx)

mutual
/-- Modelled from the spec together with the loop of generateTests: the
pass walks every test of the suite subtree (suite._allTests) and mutates
it in place; functionally, the subtree with every test processed.  Suite
titles accumulate into the full-title chain. -/
def processSuite (env : Env) (repeatEach : Nat) (grep : Option (String → Bool))
    (pfx : List String) : SuiteDeclaration → SuiteDeclaration
  | .mk ti o suites tests =>
    .mk ti o (processSuiteList env repeatEach grep (pfx ++ [ti]) suites)
             (processTests env repeatEach grep (pfx ++ [ti]) tests)

def processSuiteList (env : Env) (repeatEach : Nat) (grep : Option (String → Bool))
    (pfx : List String) : List SuiteDeclaration → List SuiteDeclaration
  | [] => []
  | c :: cs => processSuite env repeatEach grep pfx c ::
               processSuiteList env repeatEach grep pfx cs
end

mutual
/-- filterOnly (testGenerator.ts, lines 91 to 100): keep the child suites
that survive recursively or are themselves marked only, and the direct
tests marked only; if either set is nonempty replace the children with
those sets and report survival, otherwise leave the node (whose children
have been visited in place) and report no survival. -/
def filterOnly : SuiteDeclaration → SuiteDeclaration × Bool
  | .mk ti o suites tests =>
    let results := filterOnlyList suites
    let onlySuites := (results.filter fun r => r.2 || r.1._only).map (·.1)
    let onlyTests := tests.filter (·._only)
    if onlySuites.length != 0 || onlyTests.length != 0 then
      (.mk ti o onlySuites onlyTests, true)
    else
      (.mk ti o (results.map (·.1)) tests, false)

def filterOnlyList : List SuiteDeclaration → List (SuiteDeclaration × Bool)
  | [] => []
  | c :: cs => filterOnly c :: filterOnlyList cs
end

/-- generateTests (testGenerator.ts, lines 23 to 89): build the grep
predicate, process every test of every suite, gather the suites under a
fresh root with an empty title, and apply the only-filter to the root. -/
def generateTests (env : Env) (regexTest : String → String → String → Bool)
    (config : RunnerConfig) (suites : List SuiteDeclaration) : SuiteDeclaration :=
  let grep := mkGrep regexTest config.grep
  let processed := processSuiteList env config.repeatEach grep [] suites
  (filterOnly (.mk "" false processed [])).1

mutual
/-- Does the subtree hold a test marked only. -/
def hasOnlyTest : SuiteDeclaration → Bool
  | .mk _ _ suites tests => tests.any (·._only) || hasOnlyTestList suites

def hasOnlyTestList : List SuiteDeclaration → Bool
  | [] => false
  | c :: cs => hasOnlyTest c || hasOnlyTestList cs
end

mutual
/-- Modelled from the spec: the expected result shape of the only-filter
when one test is exclusive: the chain of ancestor suites down to the
exclusive tests, with every non-ancestor suite and non-exclusive test
excluded. -/
def chainToOnlyTest : SuiteDeclaration → SuiteDeclaration
  | .mk ti o suites tests =>
    if tests.any (·._only) then .mk ti o [] (tests.filter (·._only))
    else .mk ti o (chainList suites) []

/-- The chain continues into the first child suite whose subtree holds a
test marked only; with no such child it is empty. -/
def chainList : List SuiteDeclaration → List SuiteDeclaration
  | [] => []
  | c :: cs => if hasOnlyTest c then [chainToOnlyTest c] else chainList cs
end

mutual
/-- No declaration anywhere in the subtree carries the only flag. -/
def noOnlyMarkers : SuiteDeclaration → Bool
  | .mk _ o suites tests =>
    !o && tests.all (fun t => !t._only) && noOnlyMarkersList suites

def noOnlyMarkersList : List SuiteDeclaration → Bool
  | [] => true
  | c :: cs => noOnlyMarkers c && noOnlyMarkersList cs
end

mutual
/-- No suite in the subtree (the node included) carries the only flag;
tests are unconstrained. -/
def noOnlySuites : SuiteDeclaration → Bool
  | .mk _ o suites _ => !o && noOnlySuitesList suites

def noOnlySuitesList : List SuiteDeclaration → Bool
  | [] => true
  | c :: cs => noOnlySuites c && noOnlySuitesList cs
end

mutual
/-- The number of tests in the subtree marked only. -/
def onlyCount : SuiteDeclaration → Nat
  | .mk _ _ suites tests => (tests.filter (·._only)).length + onlyCountList suites

def onlyCountList : List SuiteDeclaration → Nat
  | [] => 0
  | c :: cs => onlyCount c + onlyCountList cs
end

mutual
/-- All test declarations of the subtree, direct tests first. -/
def allTests : SuiteDeclaration → List TestDeclaration
  | .mk _ _ suites tests => tests ++ allTestsList suites

def allTestsList : List SuiteDeclaration → List TestDeclaration
  | [] => []
  | c :: cs => allTests c ++ allTestsList cs
end

mutual
/-- All tests of the subtree paired with their full titles, the title
chain accumulating through pfx. -/
def allTestsT (pfx : List String) : SuiteDeclaration → List (String × TestDeclaration)
  | .mk ti _ suites tests =>
    tests.map (fun t => (fullTitle (pfx ++ [ti]) t, t)) ++
      allTestsTList (pfx ++ [ti]) suites

def allTestsTList (pfx : List String) :
    List SuiteDeclaration → List (String × TestDeclaration)
  | [] => []
  | c :: cs => allTestsT pfx c ++ allTestsTList pfx cs
end

/-- All tests of a forest of top-level suites, with full titles as the
generation pass computes them. -/
def allTestsForest (suites : List SuiteDeclaration) : List (String × TestDeclaration) :=
  allTestsTList [] suites

/-- Structural induction over suite trees through the nested child list. -/
theorem SuiteDeclaration.ind (P : SuiteDeclaration → Prop)
    (h : ∀ ti o suites tests, (∀ c ∈ suites, P c) → P (.mk ti o suites tests)) :
    ∀ s, P s
  | .mk ti o suites tests => h ti o suites tests (fun c hc => SuiteDeclaration.ind P h c)
termination_by s => sizeOf s
decreasing_by
  have := List.sizeOf_lt_of_mem hc
  simp only [SuiteDeclaration.mk.sizeOf_spec]
  omega

theorem natReprAux_zero (fuel : Nat) : natReprAux fuel 0 = [] := by
  cases fuel <;> rfl

theorem natReprAux_eq_digits : ∀ (fuel n : Nat), n ≤ fuel →
    natReprAux fuel n = ((Nat.digits 10 n).map digitChar).reverse := by
  intro fuel
  induction fuel with
  | zero =>
    intro n hn
    interval_cases n
    simp [natReprAux]
  | succ fuel ih =>
    intro n hn
    match n with
    | 0 => simp [natReprAux]
    | m + 1 =>
      have hdiv : (m + 1) / 10 < m + 1 := Nat.div_lt_self (Nat.succ_pos m) (by norm_num)
      rw [natReprAux, ih ((m + 1) / 10) (by omega),
        Nat.digits_def' (by norm_num : (1:Nat) < 10) (Nat.succ_pos m)]
      simp

theorem digitChar_inj_lt : ∀ d < 10, ∀ e < 10, digitChar d = digitChar e → d = e := by
  decide

theorem map_digitChar_inj : ∀ (l1 l2 : List Nat), (∀ x ∈ l1, x < 10) →
    (∀ x ∈ l2, x < 10) → l1.map digitChar = l2.map digitChar → l1 = l2 := by
  intro l1
  induction l1 with
  | nil =>
    intro l2 _ _ h
    cases l2 with
    | nil => rfl
    | cons y ys => simp at h
  | cons x xs ih =>
    intro l2 h1 h2 h
    cases l2 with
    | nil => simp at h
    | cons y ys =>
      simp only [List.map_cons, List.cons.injEq] at h
      have hx : x = y := digitChar_inj_lt x (h1 x (by simp)) y (h2 y (by simp)) h.1
      have hxs : xs = ys := ih ys (fun z hz => h1 z (by simp [hz]))
        (fun z hz => h2 z (by simp [hz])) h.2
      rw [hx, hxs]

theorem natRepr_eq_digits {n : Nat} (hn : n ≠ 0) :
    natRepr n = String.mk (((Nat.digits 10 n).map digitChar).reverse) := by
  unfold natRepr
  rw [if_neg hn, natReprAux_eq_digits n n le_rfl]

theorem digits_map_ne_zero {n : Nat} (hn : n ≠ 0) :
    ((Nat.digits 10 n).map digitChar).reverse ≠ ['0'] := by
  intro h
  have h2 : (Nat.digits 10 n).map digitChar = ['0'] := by
    have := congrArg List.reverse h
    simpa using this
  match hd : Nat.digits 10 n with
  | [] => rw [hd] at h2; simp at h2
  | x :: xs =>
    rw [hd] at h2
    simp only [List.map_cons, List.cons.injEq, List.map_eq_nil_iff] at h2
    have hx10 : x < 10 :=
      Nat.digits_lt_base (by norm_num) (by rw [hd]; exact List.mem_cons_self x xs)
    have hx : x = 0 := digitChar_inj_lt x hx10 0 (by norm_num) h2.1
    have := Nat.ofDigits_digits 10 n
    rw [hd, hx, h2.2] at this
    simp [Nat.ofDigits] at this
    exact hn this.symm

theorem natRepr_injective : ∀ (m n : Nat), natRepr m = natRepr n → m = n := by
  intro m n h
  by_cases hm : m = 0 <;> by_cases hn : n = 0
  · rw [hm, hn]
  · exfalso
    subst hm
    rw [natRepr_eq_digits hn] at h
    have h2 : ['0'] = ((Nat.digits 10 n).map digitChar).reverse := congrArg String.data h
    exact digits_map_ne_zero hn h2.symm
  · exfalso
    subst hn
    rw [natRepr_eq_digits hm] at h
    have h2 : ((Nat.digits 10 m).map digitChar).reverse = ['0'] := congrArg String.data h
    exact digits_map_ne_zero hm h2
  · rw [natRepr_eq_digits hm, natRepr_eq_digits hn] at h
    have h2 : ((Nat.digits 10 m).map digitChar).reverse =
        ((Nat.digits 10 n).map digitChar).reverse := congrArg String.data h
    have h3 : (Nat.digits 10 m).map digitChar = (Nat.digits 10 n).map digitChar := by
      have := congrArg List.reverse h2
      simpa using this
    have h4 : Nat.digits 10 m = Nat.digits 10 n :=
      map_digitChar_inj _ _ (fun x hx => Nat.digits_lt_base (by norm_num) hx)
        (fun x hx => Nat.digits_lt_base (by norm_num) hx) h3
    exact Nat.digits_inj_iff.mp h4

theorem str_append_cancel_left {a b c : String} (h : a ++ b = a ++ c) : b = c := by
  have h2 := congrArg String.data h
  simp only [String.data_append] at h2
  exact String.ext (List.append_cancel_left h2)

theorem str_append_cancel_right {a b c : String} (h : a ++ c = b ++ c) : a = b := by
  have h2 := congrArg String.data h
  simp only [String.data_append] at h2
  exact String.ext (List.append_cancel_right h2)

theorem str_join_cons (a : String) (l : List String) :
    String.join (a :: l) = a ++ String.join l := by
  have haux : ∀ (l : List String) (acc : String),
      List.foldl (· ++ ·) acc l = acc ++ List.foldl (· ++ ·) "" l := by
    intro l
    induction l with
    | nil => intro acc; simp
    | cons x xs ih =>
      intro acc
      simp only [List.foldl_cons]
      rw [ih (acc ++ x), ih ("" ++ x)]
      simp [String.append_assoc]
  simp only [String.join, List.foldl_cons]
  rw [haux l ("" ++ a)]
  simp [String.append_assoc]

theorem mkTestRun_configurationString_inj {env : Env} {fixtures : List String}
    {c : Configuration} {i j : Nat}
    (h : (mkTestRun env fixtures c i)._configurationString =
         (mkTestRun env fixtures c j)._configurationString) : i = j := by
  simp only [mkTestRun] at h
  have h2 := str_append_cancel_right h
  have h3 := str_append_cancel_left h2
  exact natRepr_injective i j h3

/-- C2: for every materialized run, the configuration string is the
name=value pairs joined by comma-space with the repeat suffix appended,
the worker key is the worker registration hash, an at sign, and that
configuration string; and two runs of one test with the same configuration
but distinct repeat indices have distinct worker keys. -/
theorem mkTestRun_workerKey_spec (env : Env) (fixtures : List String)
    (c : Configuration) (repeatEach i j : Nat) :
    ((mkTestRun env fixtures c i)._configurationString =
        serializeConfiguration c ++ "#repeat-" ++ natRepr i ++ "#"
      ∧ (mkTestRun env fixtures c i)._workerHash =
        computeWorkerRegistrationHash env fixtures ++ "@" ++
          (mkTestRun env fixtures c i)._configurationString)
    ∧ (∀ r ∈ runsForTest env repeatEach fixtures, ∃ c0 i0, i0 < repeatEach ∧
        r = mkTestRun env fixtures c0 i0)
    ∧ (i ≠ j → (mkTestRun env fixtures c i)._workerHash ≠
        (mkTestRun env fixtures c j)._workerHash) := by
  refine ⟨⟨rfl, by simp [mkTestRun, String.append_assoc]⟩, ?_, ?_⟩
  · intro r hr
    simp only [runsForTest, List.mem_flatMap, List.mem_map, List.mem_range] at hr
    obtain ⟨c0, _, i0, hi0, hr⟩ := hr
    exact ⟨c0, i0, hi0, hr.symm⟩
  · intro hij h
    apply hij
    simp only [mkTestRun] at h
    have h2 := str_append_cancel_left h
    have h3 : (mkTestRun env fixtures c i)._configurationString =
        (mkTestRun env fixtures c j)._configurationString := by
      simpa [mkTestRun] using h2
    exact mkTestRun_configurationString_inj h3

def env0 : Env :=
  { registrations := fun _ => ⟨"test", "L0"⟩
    matrix := fun _ => none
    sha1hex := fun s => s }

theorem mkTestRun_workerKey_spec_witness :
    (0 : Nat) ≠ 1 ∧
    (mkTestRun env0 [] [] 0)._workerHash ≠ (mkTestRun env0 [] [] 1)._workerHash :=
  ⟨by decide, (mkTestRun_workerKey_spec env0 [] [] 2 0 1).2.2 (by decide)⟩

theorem hashFold_eq_join (regs : String → Registration) :
    ∀ (fixtures : List String) (acc : String),
    fixtures.foldl (fun acc fixture =>
        let registration := regs fixture
        if registration.scope != "worker" then acc
        else acc ++ registration.location) acc
      = acc ++ String.join (workerLocations regs fixtures) := by
  intro fixtures
  induction fixtures with
  | nil => intro acc; simp [workerLocations, String.join]
  | cons f fs ih =>
    intro acc
    simp only [List.foldl_cons, workerLocations]
    by_cases hw : (regs f).scope == "worker"
    · simp only [List.filter_cons, hw, if_pos, List.map_cons]
      rw [show ((regs f).scope != "worker") = false by simp_all, if_neg (by simp)]
      rw [ih (acc ++ (regs f).location), str_join_cons]
      simp only [workerLocations, String.append_assoc]
    · simp only [List.filter_cons, hw]
      rw [show ((regs f).scope != "worker") = true by simp_all, if_pos rfl]
      exact ih acc

/-- C5: the worker registration hash is the abstract digest of the
concatenated locations of the worker-scoped registrations of the fixture
names, in list order; non-worker registrations and the matrix of fixture
values contribute nothing, so any two fixture lists (even under different
environments with the same digest function) with identical worker-scoped
location sequences hash identically. -/
theorem computeWorkerRegistrationHash_spec (env : Env) (fixtures : List String) :
    computeWorkerRegistrationHash env fixtures =
      env.sha1hex (String.join (workerLocations env.registrations fixtures))
    ∧ ∀ (env2 : Env) (fixtures2 : List String), env2.sha1hex = env.sha1hex →
        workerLocations env2.registrations fixtures2 =
          workerLocations env.registrations fixtures →
        computeWorkerRegistrationHash env2 fixtures2 =
          computeWorkerRegistrationHash env fixtures := by
  have main : ∀ (e : Env) (fx : List String), computeWorkerRegistrationHash e fx =
      e.sha1hex (String.join (workerLocations e.registrations fx)) := by
    intro e fx
    simp only [computeWorkerRegistrationHash]
    rw [hashFold_eq_join e.registrations fx ""]
    congr 1
  refine ⟨main env fixtures, ?_⟩
  intro env2 fixtures2 hsha hloc
  rw [main env2 fixtures2, main env fixtures, hsha, hloc]

theorem computeWorkerRegistrationHash_spec_witness :
    env0.sha1hex = env0.sha1hex ∧
    workerLocations env0.registrations ["a"] = workerLocations env0.registrations ["b"] ∧
    computeWorkerRegistrationHash env0 ["a"] = computeWorkerRegistrationHash env0 ["b"] :=
  ⟨rfl, by decide,
    (computeWorkerRegistrationHash_spec env0 ["b"]).2 env0 ["a"] rfl (by decide)⟩

theorem strMkData (s : String) : String.mk s.data = s := rfl

theorem grepDelimited_delim (p f : String) (hf : f = "" ∨ f = "g" ∨ f = "i") :
    grepDelimited ("/" ++ p ++ "/" ++ f) = some (p, f) := by
  have hdata : ("/" ++ p ++ "/" ++ f).data = '/' :: (p.data ++ '/' :: f.data) := by
    simp [String.data_append]
  rcases hf with hf | hf | hf <;> subst hf <;>
    simp [grepDelimited, hdata, List.reverse_append, strMkData]

theorem grepDelimited_some {s p f : String} (h : grepDelimited s = some (p, f)) :
    (f = "" ∨ f = "g" ∨ f = "i") ∧ s = "/" ++ p ++ "/" ++ f := by
  unfold grepDelimited at h
  split at h
  · simp at h
  next c rest hsd =>
    split at h
    · simp at h
    next hc =>
      have hc2 : c = '/' := by simpa using hc
      subst hc2
      split at h
      · simp at h
      next d pRev hrev =>
        have hrest : rest = pRev.reverse ++ [d] := by
          have := congrArg List.reverse hrev
          simpa using this
        split at h
        next hd =>
          subst hd
          simp only [Option.some.injEq, Prod.mk.injEq] at h
          obtain ⟨hp, hf⟩ := h
          subst hp
          subst hf
          refine ⟨Or.inl rfl, ?_⟩
          apply String.ext
          simp [String.data_append, hsd, hrest]
        next hd =>
          split at h
          · simp at h
          next eh et =>
            split at h
            next hcond =>
              simp only [Bool.and_eq_true, Bool.or_eq_true, decide_eq_true_eq] at hcond
              obtain ⟨he, hgi⟩ := hcond
              subst he
              simp only [Option.some.injEq, Prod.mk.injEq] at h
              obtain ⟨hp, hf⟩ := h
              subst hp
              subst hf
              constructor
              · rcases hgi with hg | hi
                · subst hg; exact Or.inr (Or.inl rfl)
                · subst hi; exact Or.inr (Or.inr rfl)
              · apply String.ext
                simp [String.data_append, hsd, hrest]
            next hcond => simp at h

theorem any_isLineTerm_false {p : String}
    (hp : p.data.all (fun c => !isLineTerm c) = true) (f : String)
    (hf : f = "" ∨ f = "g" ∨ f = "i") :
    ("/" ++ p ++ "/" ++ f).data.any isLineTerm = false := by
  have hdata : ("/" ++ p ++ "/" ++ f).data = '/' :: (p.data ++ '/' :: f.data) := by
    simp [String.data_append]
  rw [hdata]
  simp only [List.any_cons, List.any_append, Bool.or_eq_false_iff]
  refine ⟨by decide, ?_, by decide, ?_⟩
  · simp only [List.all_eq_true] at hp
    simp only [List.any_eq_false]
    intro c h
    have := hp c h
    simpa using this
  · rcases hf with hf | hf | hf <;> subst hf <;> decide

/-- C6 (amended): an input of the shape slash pattern slash flags with a
nonempty, line-terminator-free pattern and flags empty, "g" or "i" parses
to that pattern and those flags; an input containing a line terminator
parses to its prefix before the first terminator with no flags; an input
of that shape with an empty pattern parses to the whole input with the
captured flags; every other input parses to the whole input with no
flags.  The parse is total, so it never aborts the pass. -/
theorem parseGrep_spec :
    (∀ (p f : String), (f = "" ∨ f = "g" ∨ f = "i") → p ≠ "" →
        p.data.all (fun c => !isLineTerm c) = true →
        parseGrep ("/" ++ p ++ "/" ++ f) = (p, f))
  ∧ (∀ s : String, s.data.any isLineTerm = true →
        parseGrep s = (String.mk (s.data.takeWhile fun c => !isLineTerm c), ""))
  ∧ (∀ s : String, s.data.any isLineTerm = false →
        (¬ ∃ p f, (f = "" ∨ f = "g" ∨ f = "i") ∧ s = "/" ++ p ++ "/" ++ f) →
        parseGrep s = (s, ""))
  ∧ (∀ f : String, (f = "" ∨ f = "g" ∨ f = "i") →
        parseGrep ("//" ++ f) = ("//" ++ f, f)) := by
  refine ⟨?_, ?_, ?_, ?_⟩
  · intro p f hf hp hlt
    rw [parseGrep,
      if_neg (by simp only [any_isLineTerm_false hlt f hf]; simp),
      grepDelimited_delim p f hf]
    simp [hp]
  · intro s hs
    rw [parseGrep, if_pos (by simp [hs])]
  · intro s hs hne
    rw [parseGrep, if_neg (by simp [hs])]
    rcases hgd : grepDelimited s with _ | ⟨p, f⟩
    · rfl
    · exfalso
      have := grepDelimited_some hgd
      exact hne ⟨p, f, this.1, this.2⟩
  · intro f hf
    have h1 : ("//" : String) ++ f = "/" ++ "" ++ "/" ++ f := by
      apply String.ext; simp [String.data_append]
    rw [h1, parseGrep,
      if_neg (by simp only [any_isLineTerm_false (p := "") (by decide) f hf]; simp),
      grepDelimited_delim "" f hf]
    simp

theorem parseGrep_spec_witness :
    (("g" : String) = "" ∨ ("g" : String) = "g" ∨ ("g" : String) = "i") ∧
    ("foo" : String) ≠ "" ∧
    ("foo" : String).data.all (fun c => !isLineTerm c) = true ∧
    parseGrep "/foo/g" = ("foo", "g") :=
  ⟨Or.inr (Or.inl rfl), by decide, by decide,
    parseGrep_spec.1 "foo" "g" (Or.inr (Or.inl rfl)) (by decide) (by decide)⟩

theorem parseGrep_claim_counterexample :
    parseGrep "//" ≠ ("", "") ∧
    parseGrep "/a/gi" ≠ ("a", "gi") ∧
    parseGrep "a\nb" ≠ ("a\nb", "") := by
  refine ⟨by decide, by decide, by decide⟩

/-- The product of the domain sizes of the generator fixtures (the fixture
names present in the matrix) of a fixture list. -/
def domainSizesProduct (env : Env) (fixtures : List String) : Nat :=
  ((fixtures.filterMap env.matrix).map List.length).prod

theorem expandFixture_length (acc : List Configuration) (name : String)
    (values : List String) :
    (expandFixture acc name values).length = (max acc.length 1) * values.length := by
  simp only [expandFixture]
  by_cases hl : acc.length = 0
  · rw [if_neg (by simp [hl])]
    have : acc = [] := List.length_eq_zero.mp hl
    subst this
    simp
  · rw [if_pos (by simp [hl])]
    induction acc with
    | nil => simp at hl
    | cons g gs ih =>
      simp only [List.flatMap_cons, List.length_append, List.length_map, List.length_cons]
      by_cases hgs : gs.length = 0
      · have : gs = [] := List.length_eq_zero.mp hgs
        subst this
        simp
      · rw [ih hgs]
        have h1 : max (gs.length + 1) 1 = gs.length + 1 := by omega
        have h2 : max gs.length 1 = gs.length := by omega
        rw [h1, h2]
        ring

theorem generatorConfigurations_length_aux (env : Env) :
    ∀ (fixtures : List String) (acc : List Configuration),
    (∀ nm ∈ fixtures, ∀ vs, env.matrix nm = some vs → vs ≠ []) →
    (fixtures.foldl (matrixStep env) acc).length =
      if fixtures.filterMap env.matrix = [] then acc.length
      else (max acc.length 1) * domainSizesProduct env fixtures := by
  intro fixtures
  induction fixtures with
  | nil => intro acc h; simp [domainSizesProduct]
  | cons nm rest ih =>
    intro acc h
    simp only [List.foldl_cons]
    rcases hm : env.matrix nm with _ | vs
    · have hstep : matrixStep env acc nm = acc := by simp [matrixStep, hm]
      have hfm : List.filterMap env.matrix (nm :: rest) = List.filterMap env.matrix rest :=
        List.filterMap_cons_none hm
      have hdp : domainSizesProduct env (nm :: rest) = domainSizesProduct env rest := by
        simp [domainSizesProduct, hfm]
      rw [hstep, hfm, hdp]
      exact ih acc (fun x hx => h x (List.mem_cons_of_mem nm hx))
    · have hvs : vs ≠ [] := h nm (List.mem_cons_self nm rest) vs hm
      have hvl : vs.length ≠ 0 := by simpa using hvs
      have hstep : matrixStep env acc nm = expandFixture acc nm vs := by
        simp [matrixStep, hm]
      have hfm : List.filterMap env.matrix (nm :: rest) =
          vs :: List.filterMap env.matrix rest :=
        List.filterMap_cons_some hm
      rw [hstep, hfm]
      have hlen : (expandFixture acc nm vs).length = (max acc.length 1) * vs.length :=
        expandFixture_length acc nm vs
      have ihr := ih (expandFixture acc nm vs)
        (fun x hx => h x (List.mem_cons_of_mem nm hx))
      rw [ihr, hlen]
      by_cases hrest : rest.filterMap env.matrix = []
      · rw [if_pos hrest, if_neg (by simp)]
        simp [domainSizesProduct, hfm, hrest]
      · rw [if_neg hrest, if_neg (by simp)]
        have hone : 1 ≤ (max acc.length 1) * vs.length :=
          Nat.one_le_iff_ne_zero.mpr (by
            simp only [Nat.mul_ne_zero_iff]
            exact ⟨by omega, hvl⟩)
        have hmax : max ((max acc.length 1) * vs.length) 1 =
            (max acc.length 1) * vs.length := by omega
        rw [hmax]
        simp only [domainSizesProduct, hfm, List.map_cons, List.prod_cons]
        ring

theorem generatorConfigurations_length (env : Env) (fixtures : List String)
    (h : ∀ nm ∈ fixtures, ∀ vs, env.matrix nm = some vs → vs ≠ []) :
    (generatorConfigurations env fixtures).length =
      if fixtures.filterMap env.matrix = [] then 0
      else domainSizesProduct env fixtures := by
  have := generatorConfigurations_length_aux env fixtures [] h
  simp only [generatorConfigurations]
  simpa using this

theorem flatMap_range_map_length {α β : Type} (l : List α) (g : α → Nat → β)
    (rep : Nat) :
    (l.flatMap fun c => (List.range rep).map (g c)).length = l.length * rep := by
  induction l with
  | nil => simp
  | cons x xs ih =>
    simp only [List.flatMap_cons, List.length_append, List.length_map,
      List.length_range, List.length_cons, ih]
    ring

theorem runsForTest_length_eq (env : Env) (repeatEach : Nat) (fixtures : List String) :
    (runsForTest env repeatEach fixtures).length =
      (if (generatorConfigurations env fixtures).length = 0 then 1
       else (generatorConfigurations env fixtures).length) * repeatEach := by
  simp only [runsForTest]
  by_cases h : (generatorConfigurations env fixtures).length = 0
  · rw [if_pos h, if_pos h]
    simp [flatMap_range_map_length]
  · rw [if_neg h, if_neg h]
    exact flatMap_range_map_length _ _ _

/-- C1 (amended): for a test whose generator-fixture domains are all
nonempty, the number of runs generated by one pass equals the product of
the domain sizes times repeatEach; in particular with zero generator
fixtures it is exactly repeatEach.  (With an empty domain the product
formula fails: the expansion discards the accumulated configurations at
the empty domain, so the run count is the product of the domain sizes
after the last empty domain, times repeatEach, never zero.) -/
theorem runsForTest_count (env : Env) (repeatEach : Nat) (fixtures : List String)
    (h : ∀ nm ∈ fixtures, ∀ vs, env.matrix nm = some vs → vs ≠ []) :
    (runsForTest env repeatEach fixtures).length =
      domainSizesProduct env fixtures * repeatEach
    ∧ (fixtures.filterMap env.matrix = [] →
        (runsForTest env repeatEach fixtures).length = repeatEach)
    ∧ (∀ (grep : Option (String → Bool)) (pfx : List String) (t : TestDeclaration),
        grepIncluded grep (fullTitle pfx t) = true → resolvedFixtures t = fixtures →
        (processTest env repeatEach grep pfx t).runs.length =
          t.runs.length + domainSizesProduct env fixtures * repeatEach) := by
  have hlen := runsForTest_length_eq env repeatEach fixtures
  have hgc := generatorConfigurations_length env fixtures h
  have hmain : (runsForTest env repeatEach fixtures).length =
      domainSizesProduct env fixtures * repeatEach := by
    by_cases hfm : fixtures.filterMap env.matrix = []
    · rw [if_pos hfm] at hgc
      rw [hlen, hgc]
      simp [domainSizesProduct, hfm]
    · rw [if_neg hfm] at hgc
      have hprod : domainSizesProduct env fixtures ≠ 0 := by
        simp only [domainSizesProduct]
        intro hzero
        have hx : (0 : Nat) ∈ (fixtures.filterMap env.matrix).map List.length :=
          List.prod_eq_zero_iff.mp hzero
        obtain ⟨vs, hvsmem, hvslen⟩ := List.mem_map.mp hx
        obtain ⟨nm, hnm, hnmvs⟩ := List.mem_filterMap.mp hvsmem
        exact h nm hnm vs hnmvs (List.length_eq_zero.mp hvslen)
      rw [hlen, hgc, if_neg hprod]
  refine ⟨hmain, ?_, ?_⟩
  · intro hfm
    rw [hmain]
    simp [domainSizesProduct, hfm]
  · intro grep pfx t hinc hres
    simp only [processTest, hinc, if_pos, List.length_append, hres]
    rw [hmain]

def envC1 : Env :=
  { registrations := fun _ => ⟨"test", "L0"⟩
    matrix := fun nm => if nm = "a" then some [] else none
    sha1hex := fun s => s }

theorem runsForTest_count_counterexample :
    (runsForTest envC1 1 ["a"]).length = 1 ∧
    domainSizesProduct envC1 ["a"] * 1 = 0 := by
  refine ⟨by decide, by decide⟩

def envW : Env :=
  { registrations := fun _ => ⟨"worker", "L1"⟩
    matrix := fun nm => if nm = "a" then some ["x", "y"] else none
    sha1hex := fun s => s }

theorem runsForTest_count_witness :
    (∀ nm ∈ ["a", "b"], ∀ vs, envW.matrix nm = some vs → vs ≠ []) ∧
    (runsForTest envW 3 ["a", "b"]).length = domainSizesProduct envW ["a", "b"] * 3 :=
  ⟨by decide, (runsForTest_count envW 3 ["a", "b"] (by decide)).1⟩

/-- C9: the matrix expansion with its final fallback always yields at
least one configuration, so every test passing the grep filter gains at
least repeatEach runs; an empty domain empties the accumulated partial
configurations (an empty array is truthy, so it is not skipped), and a
later fixture with a domain restarts the expansion from the single empty
configuration. -/
theorem generatorConfigurations_fallback_spec (env : Env) (repeatEach : Nat)
    (fixtures : List String) (name : String) (values : List String)
    (acc : List Configuration) :
    1 ≤ (if (generatorConfigurations env fixtures).length = 0 then [([] : Configuration)]
         else generatorConfigurations env fixtures).length
    ∧ repeatEach ≤ (runsForTest env repeatEach fixtures).length
    ∧ expandFixture acc name [] = []
    ∧ (acc.length = 0 →
        expandFixture acc name values = values.map fun v => [(name, v)]) := by
  refine ⟨?_, ?_, ?_, ?_⟩
  · by_cases h : (generatorConfigurations env fixtures).length = 0
    · rw [if_pos h]; simp
    · rw [if_neg h]; omega
  · rw [runsForTest_length_eq]
    by_cases h : (generatorConfigurations env fixtures).length = 0
    · rw [if_pos h]; omega
    · rw [if_neg h]
      calc repeatEach = 1 * repeatEach := by omega
        _ ≤ (generatorConfigurations env fixtures).length * repeatEach :=
            Nat.mul_le_mul_right repeatEach (by omega)
  · simp [expandFixture]
  · intro hacc
    have : acc = [] := List.length_eq_zero.mp hacc
    subst this
    simp [expandFixture]

theorem generatorConfigurations_fallback_spec_witness :
    ([] : List Configuration).length = 0 ∧
    expandFixture [] "n" ["v"] = (["v"].map fun v => [("n", v)]) :=
  ⟨rfl, (generatorConfigurations_fallback_spec env0 1 [] "n" ["v"] []).2.2.2 rfl⟩

/-- C4: with an active grep, a test is included in the generation pass iff
the matcher accepts its full title (with no grep every test is included);
an included test gets its nonempty run list appended (repeatEach positive),
and an excluded test is left exactly as it was, its processing independent
of its fixture-resolution outcome and of the environment, so resolution is
never consulted for it. -/
theorem processTest_grep_spec (env : Env) (repeatEach : Nat)
    (grep : Option (String → Bool)) (pfx : List String) (t : TestDeclaration)
    (hrep : 0 < repeatEach) :
    (grepIncluded grep (fullTitle pfx t) = true →
        processTest env repeatEach grep pfx t =
          { t with runs := t.runs ++ runsForTest env repeatEach (resolvedFixtures t) }
        ∧ runsForTest env repeatEach (resolvedFixtures t) ≠ [])
    ∧ (grep = none → grepIncluded grep (fullTitle pfx t) = true)
    ∧ (grepIncluded grep (fullTitle pfx t) = false →
        processTest env repeatEach grep pfx t = t
        ∧ ∀ (env2 : Env) (fr : Except String (List String)),
            processTest env2 repeatEach grep pfx { t with fixtureResult := fr } =
              { t with fixtureResult := fr }) := by
  refine ⟨?_, ?_, ?_⟩
  · intro hinc
    refine ⟨by simp [processTest, hinc], ?_⟩
    intro hnil
    have hlen := runsForTest_length_eq env repeatEach (resolvedFixtures t)
    rw [hnil] at hlen
    have hpos : 0 < (if (generatorConfigurations env (resolvedFixtures t)).length = 0
        then 1 else (generatorConfigurations env (resolvedFixtures t)).length) := by
      by_cases h : (generatorConfigurations env (resolvedFixtures t)).length = 0 <;>
        simp [h] <;> omega
    have := Nat.mul_pos hpos hrep
    simp only [List.length_nil] at hlen
    omega
  · intro hg
    subst hg
    rfl
  · intro hex
    refine ⟨by simp [processTest, hex], ?_⟩
    intro env2 fr
    have htitle : fullTitle pfx { t with fixtureResult := fr } = fullTitle pfx t := rfl
    simp [processTest, htitle, hex]

theorem processTest_grep_spec_witness :
    (0 : Nat) < 1 ∧
    (none : Option (String → Bool)) = none ∧
    grepIncluded (none : Option (String → Bool))
      (fullTitle [] ⟨"t", false, .ok [], []⟩) = true :=
  ⟨Nat.one_pos, rfl,
    (processTest_grep_spec env0 1 none [] ⟨"t", false, .ok [], []⟩ Nat.one_pos).2.1 rfl⟩

/-- C7: a test whose fixture resolution threw proceeds with the empty
fixture list: it is processed exactly like a test that resolved to zero
fixtures, it still receives one run per repeat index with the empty
configuration and the hash over no fixtures, and the processing of the
sibling tests of the pass is untouched. -/
theorem processTest_fixtureError_spec (env : Env) (repeatEach : Nat)
    (grep : Option (String → Bool)) (pfx : List String) (t : TestDeclaration)
    (e : String) (he : t.fixtureResult = .error e) :
    resolvedFixtures t = []
    ∧ (processTest env repeatEach grep pfx t).runs =
        (processTest env repeatEach grep pfx { t with fixtureResult := .ok [] }).runs
    ∧ runsForTest env repeatEach [] = (List.range repeatEach).map (fun i =>
        { configuration := []
          _configurationString := "#repeat-" ++ natRepr i ++ "#"
          _workerHash := env.sha1hex "" ++ "@" ++ ("#repeat-" ++ natRepr i ++ "#") })
    ∧ ∀ (ts1 ts2 : List TestDeclaration),
        processTests env repeatEach grep pfx (ts1 ++ t :: ts2) =
          processTests env repeatEach grep pfx ts1 ++
            processTest env repeatEach grep pfx t ::
              processTests env repeatEach grep pfx ts2 := by
  have hres : resolvedFixtures t = [] := by simp [resolvedFixtures, he]
  refine ⟨hres, ?_, ?_, ?_⟩
  · have htitle : fullTitle pfx { t with fixtureResult := Except.ok ([] : List String) } =
        fullTitle pfx t := rfl
    have hres2 : resolvedFixtures { t with fixtureResult := Except.ok ([] : List String) } =
        [] := rfl
    by_cases hinc : grepIncluded grep (fullTitle pfx t) = true
    · simp [processTest, htitle, hinc, hres, hres2]
    · simp [processTest, htitle, hinc]
  · have hmk : mkTestRun env [] ([] : Configuration) = fun i =>
        ({ configuration := []
           _configurationString := "#repeat-" ++ natRepr i ++ "#"
           _workerHash := env.sha1hex "" ++ "@" ++ ("#repeat-" ++ natRepr i ++ "#") }
          : TestRun) :=
      funext fun i => rfl
    simp only [runsForTest]
    rw [show generatorConfigurations env [] = [] from rfl]
    simp [hmk]
  · intro ts1 ts2
    simp [processTests]

theorem processTest_fixtureError_spec_witness :
    (⟨"t", false, .error "boom", []⟩ : TestDeclaration).fixtureResult =
      .error "boom" ∧
    resolvedFixtures ⟨"t", false, .error "boom", []⟩ = [] :=
  ⟨rfl, (processTest_fixtureError_spec env0 1 none []
    ⟨"t", false, .error "boom", []⟩ "boom" rfl).1⟩

/-- The configuration strings of every run of every test of a tree, in
tree order. -/
def configurationStrings (s : SuiteDeclaration) : List String :=
  (allTests s).flatMap fun t => t.runs.map (·._configurationString)

/-- C8: generation is a pure function of the declaration tree, the
collaborator maps, the matcher and the config, so regenerating with the
same inputs yields the same tree and byte-identical configuration strings
in the same order. -/
theorem generateTests_deterministic (env : Env)
    (regexTest : String → String → String → Bool) (config : RunnerConfig)
    (suites : List SuiteDeclaration) :
    generateTests env regexTest config suites = generateTests env regexTest config suites
    ∧ configurationStrings (generateTests env regexTest config suites) =
        configurationStrings (generateTests env regexTest config suites) :=
  ⟨rfl, rfl⟩

theorem processTest_title (env : Env) (rep : Nat) (grep : Option (String → Bool))
    (pfx : List String) (t : TestDeclaration) :
    (processTest env rep grep pfx t).title = t.title := by
  unfold processTest
  split <;> rfl

theorem processTest_only_flag (env : Env) (rep : Nat) (grep : Option (String → Bool))
    (pfx : List String) (t : TestDeclaration) :
    (processTest env rep grep pfx t)._only = t._only := by
  unfold processTest
  split <;> rfl

theorem noOnlyMarkers_only {c : SuiteDeclaration} (h : noOnlyMarkers c = true) :
    c._only = false := by
  cases c with
  | mk ti o suites tests =>
    simp only [noOnlyMarkers, Bool.and_eq_true] at h
    simpa [SuiteDeclaration._only] using h.1.1

theorem noOnlyMarkersList_mem : ∀ {l : List SuiteDeclaration},
    noOnlyMarkersList l = true → ∀ c ∈ l, noOnlyMarkers c = true := by
  intro l
  induction l with
  | nil => intro _ c hc; simp at hc
  | cons x xs ih =>
    intro h c hc
    simp only [noOnlyMarkersList, Bool.and_eq_true] at h
    rcases List.mem_cons.mp hc with rfl | hc2
    · exact h.1
    · exact ih h.2 c hc2

theorem processSuiteList_noOnly_aux (env : Env) (rep : Nat)
    (grep : Option (String → Bool)) (pfx : List String) :
    ∀ (l : List SuiteDeclaration),
    (∀ c ∈ l, noOnlyMarkers (processSuite env rep grep pfx c) = noOnlyMarkers c) →
    noOnlyMarkersList (processSuiteList env rep grep pfx l) = noOnlyMarkersList l := by
  intro l h
  induction l with
  | nil => rfl
  | cons c cs ih =>
    simp only [processSuiteList, noOnlyMarkersList]
    rw [h c (by simp), ih (fun x hx => h x (by simp [hx]))]

theorem processSuite_noOnly (env : Env) (rep : Nat) (grep : Option (String → Bool)) :
    ∀ (s : SuiteDeclaration) (pfx : List String),
    noOnlyMarkers (processSuite env rep grep pfx s) = noOnlyMarkers s := by
  intro s
  induction s using SuiteDeclaration.ind with
  | _ ti o suites tests ih =>
    intro pfx
    simp only [processSuite, noOnlyMarkers]
    have h1 : (processTests env rep grep (pfx ++ [ti]) tests).all (fun t => !t._only) =
        tests.all (fun t => !t._only) := by
      simp only [processTests, List.all_map, Function.comp_def]
      simp [processTest_only_flag]
    have h2 : noOnlyMarkersList (processSuiteList env rep grep (pfx ++ [ti]) suites) =
        noOnlyMarkersList suites :=
      processSuiteList_noOnly_aux env rep grep (pfx ++ [ti]) suites
        (fun c hc => ih c hc (pfx ++ [ti]))
    rw [h1, h2]

theorem filterOnly_noOnly_aux :
    ∀ (l : List SuiteDeclaration),
    (∀ c ∈ l, noOnlyMarkers c = true → filterOnly c = (c, false)) →
    noOnlyMarkersList l = true →
    filterOnlyList l = l.map (fun c => (c, false)) := by
  intro l h hno
  induction l with
  | nil => rfl
  | cons c cs ih =>
    simp only [noOnlyMarkersList, Bool.and_eq_true] at hno
    simp only [filterOnlyList, List.map_cons]
    rw [h c (by simp) hno.1, ih (fun x hx hn => h x (by simp [hx]) hn) hno.2]

theorem filterOnly_noOnly : ∀ (s : SuiteDeclaration), noOnlyMarkers s = true →
    filterOnly s = (s, false) := by
  intro s
  induction s using SuiteDeclaration.ind with
  | _ ti o suites tests ih =>
    intro h
    simp only [noOnlyMarkers, Bool.and_eq_true] at h
    obtain ⟨⟨ho, htests⟩, hsuites⟩ := h
    simp only [filterOnly]
    rw [filterOnly_noOnly_aux suites (fun c hc hn => ih c hc hn) hsuites]
    have hfilter : ((suites.map (fun c => (c, false))).filter
        fun r => r.2 || r.1._only) = [] := by
      rw [List.filter_eq_nil_iff]
      intro r hr
      obtain ⟨c, hc, rfl⟩ := List.mem_map.mp hr
      simp [noOnlyMarkers_only (noOnlyMarkersList_mem hsuites c hc)]
    have htf : tests.filter (·._only) = [] := by
      rw [List.filter_eq_nil_iff]
      intro a ha
      have := List.all_eq_true.mp htests a ha
      simp_all
    rw [hfilter, htf]
    simp only [List.length_nil, List.map_map]
    rw [show ((fun (x : SuiteDeclaration × Bool) => x.1) ∘ fun c => (c, false)) =
      (fun c : SuiteDeclaration => c) from rfl]
    simp

/-- The action of one generation pass on one test of the tree, as a
function of its full title and declaration. -/
def grepStep (env : Env) (repeatEach : Nat) (grep : Option (String → Bool)) :
    (String × TestDeclaration) → (String × TestDeclaration) := fun pr =>
  (pr.1, if grepIncluded grep pr.1 then
      { pr.2 with runs := pr.2.runs ++ runsForTest env repeatEach (resolvedFixtures pr.2) }
    else pr.2)

theorem processTest_pair (env : Env) (rep : Nat) (grep : Option (String → Bool))
    (pfx : List String) (t : TestDeclaration) :
    (fullTitle pfx (processTest env rep grep pfx t), processTest env rep grep pfx t) =
      grepStep env rep grep (fullTitle pfx t, t) := by
  have htitle : fullTitle pfx (processTest env rep grep pfx t) = fullTitle pfx t := by
    simp [fullTitle, processTest_title]
  rw [htitle]
  simp only [grepStep, processTest]

theorem allTestsTList_processSuiteList_aux (env : Env) (rep : Nat)
    (grep : Option (String → Bool)) (pfx : List String) :
    ∀ (l : List SuiteDeclaration),
    (∀ c ∈ l, allTestsT pfx (processSuite env rep grep pfx c) =
        (allTestsT pfx c).map (grepStep env rep grep)) →
    allTestsTList pfx (processSuiteList env rep grep pfx l) =
      (allTestsTList pfx l).map (grepStep env rep grep) := by
  intro l h
  induction l with
  | nil => rfl
  | cons c cs ih =>
    simp only [processSuiteList, allTestsTList, List.map_append]
    rw [h c (by simp), ih (fun x hx => h x (by simp [hx]))]

theorem allTestsT_processSuite (env : Env) (rep : Nat)
    (grep : Option (String → Bool)) :
    ∀ (s : SuiteDeclaration) (pfx : List String),
    allTestsT pfx (processSuite env rep grep pfx s) =
      (allTestsT pfx s).map (grepStep env rep grep) := by
  intro s
  induction s using SuiteDeclaration.ind with
  | _ ti o suites tests ih =>
    intro pfx
    simp only [processSuite, allTestsT, List.map_append]
    congr 1
    · simp only [processTests, List.map_map]
      apply List.map_congr_left
      intro t _
      exact processTest_pair env rep grep (pfx ++ [ti]) t
    · exact allTestsTList_processSuiteList_aux env rep grep (pfx ++ [ti]) suites
        (fun c hc => ih c hc (pfx ++ [ti]))

/-- C10: the grep filter removes no test from the tree: with no
exclusivity markers (so the only-filter leaves the tree alone), a test
whose full title the matcher rejects is still present, unchanged and with
its run list untouched, under its suite in the tree generateTests
returns. -/
theorem generateTests_grep_frame (env : Env)
    (regexTest : String → String → String → Bool) (config : RunnerConfig)
    (suites : List SuiteDeclaration) (ft : String) (t : TestDeclaration)
    (hno : noOnlyMarkersList suites = true)
    (hmem : (ft, t) ∈ allTestsForest suites)
    (hexcl : grepIncluded (mkGrep regexTest config.grep) ft = false) :
    (ft, t) ∈ allTestsForest (generateTests env regexTest config suites).suites := by
  simp only [generateTests]
  have hnoRoot : noOnlyMarkers (.mk "" false
      (processSuiteList env config.repeatEach (mkGrep regexTest config.grep) [] suites)
      []) = true := by
    simp only [noOnlyMarkers, List.all_nil, Bool.not_false, Bool.and_true, Bool.true_and]
    rw [processSuiteList_noOnly_aux env config.repeatEach
      (mkGrep regexTest config.grep) [] suites
      (fun c _ => processSuite_noOnly env config.repeatEach
        (mkGrep regexTest config.grep) c [])]
    exact hno
  rw [filterOnly_noOnly _ hnoRoot]
  simp only [SuiteDeclaration.suites]
  rw [allTestsForest, allTestsTList_processSuiteList_aux env config.repeatEach
    (mkGrep regexTest config.grep) [] suites
    (fun c _ => allTestsT_processSuite env config.repeatEach
      (mkGrep regexTest config.grep) c [])]
  have hfix : grepStep env config.repeatEach (mkGrep regexTest config.grep) (ft, t) =
      (ft, t) := by
    simp [grepStep, hexcl]
  rw [← hfix]
  exact List.mem_map_of_mem _ hmem

def tW : TestDeclaration := ⟨"t", false, .ok [], []⟩

def exW : SuiteDeclaration := .mk "A" false [] [tW]

theorem generateTests_grep_frame_witness :
    noOnlyMarkersList [exW] = true ∧
    ("A t", tW) ∈ allTestsForest [exW] ∧
    grepIncluded (mkGrep (fun _ _ _ => false) (some "x")) "A t" = false ∧
    ("A t", tW) ∈ allTestsForest
      (generateTests env0 (fun _ _ _ => false) ⟨some "x", 1⟩ [exW]).suites :=
  ⟨by decide, by decide, rfl,
    generateTests_grep_frame env0 (fun _ _ _ => false) ⟨some "x", 1⟩ [exW] "A t" tW
      (by decide) (by decide) rfl⟩

theorem noOnlySuites_only {c : SuiteDeclaration} (h : noOnlySuites c = true) :
    c._only = false := by
  cases c with
  | mk ti o suites tests =>
    simp only [noOnlySuites, Bool.and_eq_true] at h
    simpa [SuiteDeclaration._only] using h.1

theorem noOnlySuitesList_mem : ∀ {l : List SuiteDeclaration},
    noOnlySuitesList l = true → ∀ c ∈ l, noOnlySuites c = true := by
  intro l
  induction l with
  | nil => intro _ c hc; simp at hc
  | cons x xs ih =>
    intro h c hc
    simp only [noOnlySuitesList, Bool.and_eq_true] at h
    rcases List.mem_cons.mp hc with rfl | hc2
    · exact h.1
    · exact ih h.2 c hc2

theorem noOnlySuitesList_append : ∀ (l1 l2 : List SuiteDeclaration),
    noOnlySuitesList (l1 ++ l2) = (noOnlySuitesList l1 && noOnlySuitesList l2) := by
  intro l1 l2
  induction l1 with
  | nil => simp [noOnlySuitesList]
  | cons x xs ih =>
    simp only [List.cons_append, List.append_eq, noOnlySuitesList, ih, Bool.and_assoc]

theorem onlyCountList_zero_mem : ∀ {l : List SuiteDeclaration},
    onlyCountList l = 0 → ∀ c ∈ l, onlyCount c = 0 := by
  intro l
  induction l with
  | nil => intro _ c hc; simp at hc
  | cons x xs ih =>
    intro h c hc
    simp only [onlyCountList] at h
    rcases List.mem_cons.mp hc with rfl | hc2
    · omega
    · exact ih (by omega) c hc2

theorem onlyCountList_append : ∀ (l1 l2 : List SuiteDeclaration),
    onlyCountList (l1 ++ l2) = onlyCountList l1 + onlyCountList l2 := by
  intro l1 l2
  induction l1 with
  | nil => simp [onlyCountList]
  | cons x xs ih =>
    simp only [List.cons_append, List.append_eq, onlyCountList, ih]
    omega

theorem filterOnlyList_append : ∀ (l1 l2 : List SuiteDeclaration),
    filterOnlyList (l1 ++ l2) = filterOnlyList l1 ++ filterOnlyList l2 := by
  intro l1 l2
  induction l1 with
  | nil => rfl
  | cons x xs ih => simp only [List.cons_append, List.append_eq, filterOnlyList, ih]

theorem allTestsList_append : ∀ (l1 l2 : List SuiteDeclaration),
    allTestsList (l1 ++ l2) = allTestsList l1 ++ allTestsList l2 := by
  intro l1 l2
  induction l1 with
  | nil => rfl
  | cons x xs ih => simp only [List.cons_append, List.append_eq, allTestsList, ih, List.append_assoc]

theorem noOnlyMarkersList_of_aux :
    ∀ (l : List SuiteDeclaration),
    (∀ c ∈ l, noOnlySuites c = true → onlyCount c = 0 → noOnlyMarkers c = true) →
    noOnlySuitesList l = true → onlyCountList l = 0 → noOnlyMarkersList l = true := by
  intro l h hs hc
  induction l with
  | nil => rfl
  | cons x xs ih =>
    simp only [noOnlySuitesList, Bool.and_eq_true] at hs
    simp only [onlyCountList] at hc
    simp only [noOnlyMarkersList, Bool.and_eq_true]
    exact ⟨h x (by simp) hs.1 (by omega),
      ih (fun c hcm => h c (by simp [hcm])) hs.2 (by omega)⟩

theorem noOnly_of : ∀ (s : SuiteDeclaration),
    noOnlySuites s = true → onlyCount s = 0 → noOnlyMarkers s = true := by
  intro s
  induction s using SuiteDeclaration.ind with
  | _ ti o suites tests ih =>
    intro hs hc
    simp only [noOnlySuites, Bool.and_eq_true] at hs
    simp only [onlyCount] at hc
    simp only [noOnlyMarkers, Bool.and_eq_true]
    refine ⟨⟨hs.1, ?_⟩, ?_⟩
    · have hf : tests.filter (·._only) = [] :=
        List.length_eq_zero.mp (by omega)
      rw [List.all_eq_true]
      intro t ht
      by_contra hcon
      have : t._only = true := by
        revert hcon
        cases t._only <;> simp
      exact absurd (List.filter_eq_nil_iff.mp hf t ht) (by simp [this])
    · exact noOnlyMarkersList_of_aux suites ih hs.2 (by omega)

theorem noOnlyMarkersList_of (l : List SuiteDeclaration)
    (hs : noOnlySuitesList l = true) (hc : onlyCountList l = 0) :
    noOnlyMarkersList l = true :=
  noOnlyMarkersList_of_aux l (fun c _ => noOnly_of c) hs hc

theorem filterOnlyList_noOnly (l : List SuiteDeclaration)
    (h : noOnlyMarkersList l = true) :
    filterOnlyList l = l.map (fun c => (c, false)) :=
  filterOnly_noOnly_aux l (fun c _ hn => filterOnly_noOnly c hn) h

theorem filter_pairs_false : ∀ (l : List SuiteDeclaration),
    (∀ x ∈ l, x._only = false) →
    (l.map (fun c => (c, false))).filter (fun r => r.2 || r.1._only) = [] := by
  intro l h
  rw [List.filter_eq_nil_iff]
  intro r hr
  obtain ⟨c, hc, rfl⟩ := List.mem_map.mp hr
  simp [h c hc]

theorem onlyCountList_one_split : ∀ (l : List SuiteDeclaration),
    onlyCountList l = 1 →
    ∃ l1 c l2, l = l1 ++ c :: l2 ∧ onlyCountList l1 = 0 ∧ onlyCount c = 1 ∧
      onlyCountList l2 = 0 := by
  intro l
  induction l with
  | nil => intro h; simp [onlyCountList] at h
  | cons x xs ih =>
    intro h
    simp only [onlyCountList] at h
    by_cases hx : onlyCount x = 1
    · exact ⟨[], x, xs, rfl, rfl, hx, by omega⟩
    · obtain ⟨l1, c, l2, heq, h1, h2, h3⟩ := ih (by omega)
      exact ⟨x :: l1, c, l2, by simp [heq],
        by simp only [onlyCountList, h1]; omega, h2, h3⟩

theorem chainList_concat : ∀ (l1 : List SuiteDeclaration) (c : SuiteDeclaration)
    (l2 : List SuiteDeclaration),
    (∀ x ∈ l1, hasOnlyTest x = false) → hasOnlyTest c = true →
    chainList (l1 ++ c :: l2) = [chainToOnlyTest c] := by
  intro l1 c l2 h hc
  induction l1 with
  | nil => simp [chainList, hc]
  | cons x xs ih =>
    simp only [List.cons_append, chainList]
    rw [if_neg (by simp [h x (by simp)])]
    exact ih (fun y hy => h y (by simp [hy]))

theorem hasOnlyTestList_iff_aux : ∀ (l : List SuiteDeclaration),
    (∀ c ∈ l, (hasOnlyTest c = true ↔ onlyCount c ≠ 0)) →
    (hasOnlyTestList l = true ↔ onlyCountList l ≠ 0) := by
  intro l h
  induction l with
  | nil => simp [hasOnlyTestList, onlyCountList]
  | cons x xs ih =>
    simp only [hasOnlyTestList, onlyCountList, Bool.or_eq_true]
    rw [h x (by simp), ih (fun c hc => h c (by simp [hc]))]
    omega

theorem any_only_iff_filter_length (tests : List TestDeclaration) :
    tests.any (·._only) = true ↔ (tests.filter (·._only)).length ≠ 0 := by
  rw [Ne, List.length_eq_zero, List.filter_eq_nil_iff]
  simp only [List.any_eq_true]
  constructor
  · rintro ⟨x, hx, hp⟩ hall
    exact hall x hx hp
  · intro h
    by_contra hcon
    apply h
    intro x hx hp
    exact hcon ⟨x, hx, hp⟩

theorem hasOnlyTest_iff : ∀ (s : SuiteDeclaration),
    hasOnlyTest s = true ↔ onlyCount s ≠ 0 := by
  intro s
  induction s using SuiteDeclaration.ind with
  | _ ti o suites tests ih =>
    simp only [hasOnlyTest, onlyCount, Bool.or_eq_true]
    rw [hasOnlyTestList_iff_aux suites ih, any_only_iff_filter_length]
    omega

theorem onlyCount_eq_aux : ∀ (l : List SuiteDeclaration),
    (∀ c ∈ l, onlyCount c = ((allTests c).filter (·._only)).length) →
    onlyCountList l = ((allTestsList l).filter (·._only)).length := by
  intro l h
  induction l with
  | nil => rfl
  | cons x xs ih =>
    simp only [onlyCountList, allTestsList, List.filter_append, List.length_append]
    rw [h x (by simp), ih (fun c hc => h c (by simp [hc]))]

theorem onlyCount_eq : ∀ (s : SuiteDeclaration),
    onlyCount s = ((allTests s).filter (·._only)).length := by
  intro s
  induction s using SuiteDeclaration.ind with
  | _ ti o suites tests ih =>
    simp only [onlyCount, allTests, List.filter_append, List.length_append]
    rw [onlyCount_eq_aux suites ih]

theorem hasOnlyTest_false_of_count {x : SuiteDeclaration} (h : onlyCount x = 0) :
    hasOnlyTest x = false := by
  by_contra hcon
  have ht : hasOnlyTest x = true := by
    revert hcon
    cases hasOnlyTest x <;> simp
  exact absurd ((hasOnlyTest_iff x).mp ht) (by omega)

theorem any_only_false_of_filter {tests : List TestDeclaration}
    (h : tests.filter (·._only) = []) : tests.any (·._only) = false := by
  by_contra hcon
  have ht : tests.any (·._only) = true := by
    revert hcon
    cases tests.any (·._only) <;> simp
  have := (any_only_iff_filter_length tests).mp ht
  rw [h] at this
  simp at this

theorem filterOnly_one : ∀ (s : SuiteDeclaration),
    noOnlySuites s = true → onlyCount s = 1 →
    filterOnly s = (chainToOnlyTest s, true) := by
  intro s
  induction s using SuiteDeclaration.ind with
  | _ ti o suites tests ih =>
    intro hs hc
    simp only [noOnlySuites, Bool.and_eq_true] at hs
    obtain ⟨ho, hsl⟩ := hs
    simp only [onlyCount] at hc
    by_cases hlen : (tests.filter (·._only)).length = 1
    · have hc0 : onlyCountList suites = 0 := by omega
      have hml : noOnlyMarkersList suites = true := noOnlyMarkersList_of suites hsl hc0
      have hany : tests.any (·._only) = true :=
        (any_only_iff_filter_length tests).mpr (by omega)
      simp only [filterOnly]
      rw [filterOnlyList_noOnly suites hml,
        filter_pairs_false suites
          (fun x hx => noOnlySuites_only (noOnlySuitesList_mem hsl x hx))]
      simp only [List.map_nil, List.length_nil]
      rw [if_pos (by simp [hlen])]
      simp [chainToOnlyTest, hany]
    · have hlen0 : (tests.filter (·._only)).length = 0 := by omega
      have hcl : onlyCountList suites = 1 := by omega
      have hf0 : tests.filter (·._only) = [] := List.length_eq_zero.mp hlen0
      have hany : tests.any (·._only) = false := any_only_false_of_filter hf0
      obtain ⟨l1, c, l2, rfl, h10, hc1, h20⟩ := onlyCountList_one_split suites hcl
      have hsplit : noOnlySuitesList l1 = true ∧ noOnlySuites c = true ∧
          noOnlySuitesList l2 = true := by
        rw [noOnlySuitesList_append] at hsl
        simp only [Bool.and_eq_true] at hsl
        have h2 := hsl.2
        simp only [noOnlySuitesList, Bool.and_eq_true] at h2
        exact ⟨hsl.1, h2.1, h2.2⟩
      have hihc := ih c (by simp) hsplit.2.1 hc1
      have hm1 : noOnlyMarkersList l1 = true := noOnlyMarkersList_of l1 hsplit.1 h10
      have hm2 : noOnlyMarkersList l2 = true := noOnlyMarkersList_of l2 hsplit.2.2 h20
      have hchain : chainToOnlyTest (.mk ti o (l1 ++ c :: l2) tests) =
          .mk ti o [chainToOnlyTest c] [] := by
        have hfc : chainList (l1 ++ c :: l2) = [chainToOnlyTest c] :=
          chainList_concat l1 c l2
            (fun x hx => hasOnlyTest_false_of_count (onlyCountList_zero_mem h10 x hx))
            ((hasOnlyTest_iff c).mpr (by omega))
        simp [chainToOnlyTest, hany, hfc]
      rw [hchain]
      simp only [filterOnly]
      rw [filterOnlyList_append, filterOnlyList_noOnly l1 hm1,
        show filterOnlyList (c :: l2) = filterOnly c :: filterOnlyList l2 from rfl,
        filterOnlyList_noOnly l2 hm2, hihc, List.filter_append,
        filter_pairs_false l1
          (fun x hx => noOnlySuites_only (noOnlySuitesList_mem hsplit.1 x hx)),
        show List.filter (fun r => r.2 || r.1._only)
            ((chainToOnlyTest c, true) :: l2.map (fun c => (c, false))) =
          (chainToOnlyTest c, true) ::
            List.filter (fun r => r.2 || r.1._only) (l2.map (fun c => (c, false)))
          from by simp,
        filter_pairs_false l2
          (fun x hx => noOnlySuites_only (noOnlySuitesList_mem hsplit.2.2 x hx)),
        hf0]
      simp

theorem allTests_chain : ∀ (s : SuiteDeclaration),
    noOnlySuites s = true → onlyCount s = 1 →
    allTests (chainToOnlyTest s) = (allTests s).filter (·._only) := by
  intro s
  induction s using SuiteDeclaration.ind with
  | _ ti o suites tests ih =>
    intro hs hc
    simp only [noOnlySuites, Bool.and_eq_true] at hs
    obtain ⟨ho, hsl⟩ := hs
    simp only [onlyCount] at hc
    have hlistEq : onlyCountList suites =
        ((allTestsList suites).filter (·._only)).length :=
      onlyCount_eq_aux suites (fun c _ => onlyCount_eq c)
    by_cases hlen : (tests.filter (·._only)).length = 1
    · have hc0 : onlyCountList suites = 0 := by omega
      have hany : tests.any (·._only) = true :=
        (any_only_iff_filter_length tests).mpr (by omega)
      have hrest : (allTestsList suites).filter (·._only) = [] :=
        List.length_eq_zero.mp (by omega)
      simp [chainToOnlyTest, hany, allTests, List.filter_append, hrest, allTestsList]
    · have hlen0 : (tests.filter (·._only)).length = 0 := by omega
      have hcl : onlyCountList suites = 1 := by omega
      have hf0 : tests.filter (·._only) = [] := List.length_eq_zero.mp hlen0
      have hany : tests.any (·._only) = false := any_only_false_of_filter hf0
      obtain ⟨l1, c, l2, rfl, h10, hc1, h20⟩ := onlyCountList_one_split suites hcl
      have hsplit : noOnlySuitesList l1 = true ∧ noOnlySuites c = true ∧
          noOnlySuitesList l2 = true := by
        rw [noOnlySuitesList_append] at hsl
        simp only [Bool.and_eq_true] at hsl
        have h2 := hsl.2
        simp only [noOnlySuitesList, Bool.and_eq_true] at h2
        exact ⟨hsl.1, h2.1, h2.2⟩
      have hihc := ih c (by simp) hsplit.2.1 hc1
      have hchain : chainToOnlyTest (.mk ti o (l1 ++ c :: l2) tests) =
          .mk ti o [chainToOnlyTest c] [] := by
        have hfc : chainList (l1 ++ c :: l2) = [chainToOnlyTest c] :=
          chainList_concat l1 c l2
            (fun x hx => hasOnlyTest_false_of_count (onlyCountList_zero_mem h10 x hx))
            ((hasOnlyTest_iff c).mpr (by omega))
        simp [chainToOnlyTest, hany, hfc]
      have hz1 : (allTestsList l1).filter (·._only) = [] := by
        have := onlyCount_eq_aux l1 (fun x _ => onlyCount_eq x)
        exact List.length_eq_zero.mp (by omega)
      have hz2 : (allTestsList l2).filter (·._only) = [] := by
        have := onlyCount_eq_aux l2 (fun x _ => onlyCount_eq x)
        exact List.length_eq_zero.mp (by omega)
      rw [hchain]
      simp only [allTests, allTestsList, allTestsList_append, List.filter_append,
        List.append_nil, List.nil_append, hf0, hz1, hz2, hihc]

/-- C3 (amended): over a tree in which no suite is marked exclusive, if
exactly one test is marked exclusive then the only-filter reduces the tree
to exactly the chain of ancestor suites down to that test (every
non-ancestor suite and every other test excluded), and reports survival;
and if no declaration at all is marked exclusive the tree is left
completely untouched.  (If an exclusive suite is also present, that suite
survives with all its tests, so the claim needs the no-exclusive-suite
hypothesis.) -/
theorem filterOnly_exclusive_spec (s : SuiteDeclaration) :
    (noOnlySuites s = true → ((allTests s).filter (·._only)).length = 1 →
        filterOnly s = (chainToOnlyTest s, true) ∧
        allTests (filterOnly s).1 = (allTests s).filter (·._only))
    ∧ (noOnlyMarkers s = true → filterOnly s = (s, false)) := by
  constructor
  · intro hs hlen
    have hc : onlyCount s = 1 := by rw [onlyCount_eq]; exact hlen
    have h1 := filterOnly_one s hs hc
    refine ⟨h1, ?_⟩
    rw [h1]
    exact allTests_chain s hs hc
  · exact filterOnly_noOnly s

def exWitnessTree : SuiteDeclaration :=
  .mk "root" false
    [.mk "A" false [.mk "B" false []
        [⟨"t", true, .ok [], []⟩, ⟨"u", false, .ok [], []⟩]] [],
     .mk "C" false [] [⟨"v", false, .ok [], []⟩]] []

theorem filterOnly_exclusive_spec_witness :
    noOnlySuites exWitnessTree = true ∧
    ((allTests exWitnessTree).filter (·._only)).length = 1 ∧
    filterOnly exWitnessTree = (chainToOnlyTest exWitnessTree, true) :=
  ⟨by decide, by decide,
    ((filterOnly_exclusive_spec exWitnessTree).1 (by decide) (by decide)).1⟩

def exOnlySuiteTree : SuiteDeclaration :=
  .mk "root" false [.mk "S" true [] [⟨"u", false, .ok [], []⟩]]
    [⟨"t", true, .ok [], []⟩]

theorem filterOnly_exclusive_counterexample :
    ((allTests exOnlySuiteTree).filter (·._only)).length = 1 ∧
    allTests (filterOnly exOnlySuiteTree).1 ≠
      (allTests exOnlySuiteTree).filter (·._only) := by
  refine ⟨by decide, by decide⟩
